import Mathlib

/-!
# Verification of `salt/modules/sysmod.py`

A shallow embedding of the `sys` execution module: a read-only introspection
layer over the execution-function registry `__salt__` and the state-function
registry `salt.state.State(__opts__).states`.

A registry is modelled as a Python dict with string keys: an association list
kept in insertion order, with `d[k] = v` overwriting in place.  The values of
a registry are the docstrings of the registered callables (`None` allowed),
which is the only attribute `sysmod.py` reads from them.

Machinery that `sysmod.py` calls but that lives outside this repository
(the documentation normalizer `salt.utils.doc.strip_rst`, and the state
registry provider `salt.state.State`) is modelled from the spec; each such
definition says so in its doc comment.
-/

set_option linter.unusedVariables false

/-- A Python dict with string keys, as an association list in insertion order. -/
abbrev Dict (V : Type) := List (String × V)

/-- A registry (`__salt__` or `salt.state.State(__opts__).states`):
fully-qualified name to docstring of the registered callable
(`none` models a callable whose `__doc__` is `None`). -/
abbrev Reg := Dict (Option String)

/-- Python `d[k]` (as an `Option`: `none` when the key is absent). -/
def lookupD {V : Type} (d : Dict V) (k : String) : Option V :=
  (d.find? (fun p => p.1 == k)).map Prod.snd

/-- Python `k in d`. -/
def containsD {V : Type} (d : Dict V) (k : String) : Bool :=
  d.any (fun p => p.1 == k)

/-- Python `d[k] = v`: overwrite in place when the key exists, append otherwise. -/
def insertD {V : Type} (d : Dict V) (k : String) (v : V) : Dict V :=
  if containsD d k then d.map (fun p => if p.1 == k then (k, v) else p)
  else d ++ [(k, v)]

/-- Python `s.add(x)` on a set modelled as a duplicate-free list. -/
def insertS (s : List String) (x : String) : List String :=
  if s.contains x then s else s ++ [x]

/-- Python truthiness of a string (`if module:`): true iff non-empty. -/
def pyTruthy (s : String) : Bool := !s.data.isEmpty

/-- Python `s.endswith('.')`. -/
def endsDot (s : String) : Bool := s.data.getLast? == some '.'

/-- Python `s.startswith(t)`. -/
def pyStartsWith (s t : String) : Bool := t.data.isPrefixOf s.data

/-- Code-point lexicographic order on character lists: how Python compares
strings when sorting. -/
def lexLe : List Char → List Char → Bool
  | [], _ => true
  | _ :: _, [] => false
  | a :: as, b :: bs => if a = b then lexLe as bs else decide (a < b)

/-- Python string comparison `a <= b`. -/
def strLe (a b : String) : Bool := lexLe a.data b.data

/-- Insert into an already sorted list, keeping it sorted. -/
def insertSorted (x : String) : List String → List String
  | [] => [x]
  | y :: ys => if strLe x y then x :: y :: ys else y :: insertSorted x ys

/-- Python `sorted(...)` over strings, as insertion sort (a sorted permutation;
equal strings are identical, so this determines the same list as any stable
sort). -/
def sortStrings (l : List String) : List String := l.foldr insertSorted []

/-- The effective matching target computed for a query term in `doc`,
`state_doc`, `list_functions` and `list_state_functions`:
`module + '.' if not module.endswith('.') else module` when the term is truthy.
An untruthy term is the empty string, for which `doc` assigns `target_mod = ''`
and the listing loops leave `module` unchanged (also `''`), so both spellings
are this same function. -/
def withSep (module : String) : String :=
  if pyTruthy module then (if endsDot module then module else module ++ ".") else ""

/-- The per-entry test in `doc`/`state_doc`:
`fun == module or fun.startswith(target_mod)`. -/
def docMatch (module fn : String) : Bool :=
  fn == module || pyStartsWith fn (withSep module)

/-- `__salt__[fun].__doc__` for a name `fun` obtained by iterating the registry. -/
def regVal (reg : Reg) (k : String) : Option String := (lookupD reg k).getD none

/-- The no-argument branch of `doc`:
`for fun in __salt__: docs[fun] = __salt__[fun].__doc__`. -/
def docDump (reg : Reg) : Dict (Option String) :=
  reg.foldl (fun d p => insertD d p.1 (regVal reg p.1)) []

/-- The term loop of `doc`: for each term, scan the registry and collect every
entry whose name passes `docMatch`. -/
def docSelect (reg : Reg) (args : List String) : Dict (Option String) :=
  args.foldl
    (fun d module =>
      reg.foldl
        (fun d p => if docMatch module p.1 then insertD d p.1 (regVal reg p.1) else d)
        d)
    []

/-- Modelled from the spec: the Documentation Normalizer
(`salt.utils.doc.strip_rst`, not a file of this repository) "strips
structural/markup formatting from a raw documentation string, returning plain
prose; invoked once per surfaced documentation value" — it rewrites each value
of the collected dict in place, leaving the key set unchanged.  The per-value
rewrite itself is kept abstract as the parameter `norm`. -/
def strip_rst (norm : Option String → Option String) (d : Dict (Option String)) :
    Dict (Option String) :=
  d.map (fun p => (p.1, norm p.2))

/-- `sysmod.doc(*args)`. -/
def doc (norm : Option String → Option String) (reg : Reg) (args : List String) :
    Dict (Option String) :=
  if args.isEmpty then strip_rst norm (docDump reg)
  else strip_rst norm (docSelect reg args)

/-- `sysmod.list_functions(*args, **kwargs)`.  The `kwargs` parameter is
accepted (any type) and never used, mirroring the source's
`**kwargs`-to-swallow-garbage contract. -/
def list_functions {κ : Type} (reg : Reg) (args : List String) (kwargs : κ) :
    List String :=
  if args.isEmpty then sortStrings (reg.map Prod.fst)
  else
    sortStrings
      (args.foldl
        (fun names module =>
          reg.foldl
            (fun names p =>
              if pyStartsWith p.1 (withSep module) then insertS names p.1 else names)
            names)
        [])

/-- Python `func.split('.')` restricted to the single-character separator
actually used by `sysmod.py`. -/
def splitCharList (c : Char) : List Char → List (List Char)
  | [] => [[]]
  | ch :: rest =>
    if ch = c then [] :: splitCharList c rest
    else (ch :: (splitCharList c rest).headD []) :: (splitCharList c rest).tail

/-- `func.split('.')` on strings. -/
def pySplitDot (s : String) : List String :=
  (splitCharList '.' s.data).map (fun l => String.mk l)

/-- `sysmod.list_modules()`. -/
def list_modules (reg : Reg) : List String :=
  sortStrings
    (reg.foldl
      (fun modules p =>
        let comps := pySplitDot p.1
        if comps.length < 2 then modules else insertS modules (comps.headD ""))
      [])

/-- The distinct condition signalled when the state registry provider is
unavailable. -/
inductive ProviderError : Type
  | unavailable
deriving DecidableEq

/-- The host agent configuration `__opts__`, as far as this layer consumes it:
it determines whether the state registry provider can be constructed, and if
so, which registry it exposes. -/
structure Opts where
  stateRegistry : Option Reg

/-- Modelled from the spec: constructing the State Registry Provider
(`salt.state.State(__opts__).states`; `salt.state` is not a file of this
repository) from the host configuration.  Per the spec an "unavailable or
uninitialized registry/provider" is "a distinct, explicitly signaled
condition (e.g., a typed error) rather than conflating it with zero
matches", so construction either yields the state registry or raises the
distinct `ProviderError.unavailable`. -/
def stateStates (o : Opts) : Except ProviderError Reg :=
  match o.stateRegistry with
  | some r => Except.ok r
  | none => Except.error ProviderError.unavailable

/-- `sysmod.state_doc(*args)`: its body is `doc`'s body run against
`salt.state.State(__opts__).states` instead of `__salt__`. -/
def state_doc (norm : Option String → Option String) (o : Opts) (args : List String) :
    Except ProviderError (Dict (Option String)) :=
  (stateStates o).map (fun st => doc norm st args)

/-- `sysmod.list_state_functions(*args, **kwargs)`: its body is
`list_functions`'s body run against `salt.state.State(__opts__).states`. -/
def list_state_functions {κ : Type} (o : Opts) (args : List String) (kwargs : κ) :
    Except ProviderError (List String) :=
  (stateStates o).map (fun st => list_functions st args kwargs)

/-! ## Dictionary lemmas -/

theorem beqT {a b : String} (h : a = b) : (a == b) = true := by simp [h]

theorem beqF {a b : String} (h : a ≠ b) : (a == b) = false := by simp [h]

theorem if_cond_true {V : Type} {c : Bool} {a b : V} (h : c = true) :
    (if c then a else b) = a := by rw [h]; rfl

theorem if_cond_false {V : Type} {c : Bool} {a b : V} (h : c = false) :
    (if c then a else b) = b := by rw [h]; rfl

theorem containsD_cons {V : Type} (p : String × V) (d : Dict V) (k : String) :
    containsD (p :: d) k = ((p.1 == k) || containsD d k) := by
  simp [containsD, List.any_cons]

theorem containsD_iff {V : Type} (d : Dict V) (k : String) :
    containsD d k = true ↔ k ∈ d.map Prod.fst := by
  simp only [containsD, List.any_eq_true, List.mem_map, beq_iff_eq]

theorem lookupD_cons {V : Type} (p : String × V) (d : Dict V) (k : String) :
    lookupD (p :: d) k = if p.1 == k then some p.2 else lookupD d k := by
  by_cases h : (p.1 == k) = true
  · simp [lookupD, List.find?_cons_of_pos _ h, h]
  · simp [lookupD, List.find?_cons_of_neg _ h, h]

theorem containsD_eq_isSome_lookupD {V : Type} (d : Dict V) (k : String) :
    containsD d k = (lookupD d k).isSome := by
  rw [Bool.eq_iff_iff]
  simp [containsD, lookupD, List.any_eq_true, List.find?_isSome]

theorem lookupD_map_overwrite_ne {V : Type} (d : Dict V) (k k' : String) (v : V)
    (h : k' ≠ k) :
    lookupD (d.map (fun p => if p.1 == k then (k, v) else p)) k' = lookupD d k' := by
  have hkk' : k ≠ k' := fun he => h he.symm
  induction d with
  | nil => rfl
  | cons p rest ih =>
    rw [List.map_cons]
    by_cases hp : p.1 = k
    · rw [if_cond_true (beqT hp), lookupD_cons, lookupD_cons]
      rw [if_cond_false (show ((k, v).1 == k') = false from beqF hkk')]
      rw [if_cond_false (show (p.1 == k') = false by rw [hp]; exact beqF hkk')]
      exact ih
    · rw [if_cond_false (beqF hp), lookupD_cons, lookupD_cons, ih]

theorem lookupD_map_overwrite_eq {V : Type} (d : Dict V) (k : String) (v : V)
    (h : containsD d k = true) :
    lookupD (d.map (fun p => if p.1 == k then (k, v) else p)) k = some v := by
  induction d with
  | nil => simp [containsD] at h
  | cons p rest ih =>
    rw [List.map_cons]
    by_cases hp : p.1 = k
    · rw [if_cond_true (beqT hp), lookupD_cons]
      rw [if_cond_true (show ((k, v).1 == k) = true from beqT rfl)]
    · rw [containsD_cons, beqF hp, Bool.false_or] at h
      rw [if_cond_false (beqF hp), lookupD_cons, if_cond_false (beqF hp)]
      exact ih h

theorem lookupD_append_notContained {V : Type} (d : Dict V) (k k' : String) (v : V)
    (h : containsD d k = false) :
    lookupD (d ++ [(k, v)]) k' = if k' = k then some v else lookupD d k' := by
  induction d with
  | nil =>
    rw [List.nil_append, lookupD_cons]
    by_cases hk : k' = k
    · rw [if_cond_true (show ((k, v).1 == k') = true from beqT hk.symm), if_pos hk]
    · rw [if_cond_false (show ((k, v).1 == k') = false from beqF fun he => hk he.symm),
        if_neg hk]
  | cons p rest ih =>
    rw [containsD_cons, Bool.or_eq_false_iff] at h
    rw [List.cons_append, lookupD_cons, lookupD_cons]
    by_cases hp : p.1 = k'
    · have hpk : p.1 ≠ k := by simpa using h.1
      have hk : k' ≠ k := fun he => hpk (hp.trans he)
      rw [if_cond_true (beqT hp), if_neg hk, if_cond_true (beqT hp)]
    · rw [if_cond_false (beqF hp), ih h.2]
      by_cases hk : k' = k
      · rw [if_pos hk, if_pos hk]
      · rw [if_neg hk, if_neg hk, if_cond_false (beqF hp)]

theorem lookupD_insertD {V : Type} (d : Dict V) (k k' : String) (v : V) :
    lookupD (insertD d k v) k' = if k' = k then some v else lookupD d k' := by
  unfold insertD
  by_cases hc : containsD d k = true
  · rw [if_pos hc]
    by_cases hk : k' = k
    · subst hk
      rw [lookupD_map_overwrite_eq d k' v hc, if_pos rfl]
    · rw [lookupD_map_overwrite_ne d k k' v hk, if_neg hk]
  · have hc' : containsD d k = false := by simpa using hc
    rw [if_cond_false hc']
    exact lookupD_append_notContained d k k' v hc'

theorem containsD_insertD {V : Type} (d : Dict V) (k k' : String) (v : V) :
    containsD (insertD d k v) k' = ((k' == k) || containsD d k') := by
  rw [containsD_eq_isSome_lookupD, lookupD_insertD, containsD_eq_isSome_lookupD]
  by_cases hk : k' = k
  · rw [if_pos hk, beqT hk, Bool.true_or]; rfl
  · rw [if_neg hk, beqF hk, Bool.false_or]

/-! ## Characterizing the `doc` aggregation -/

theorem lookupD_foldl_insert (pred : String → Bool) (val : String → Option String)
    (reg : Reg) (d0 : Dict (Option String)) (k : String) :
    lookupD
        (reg.foldl (fun d p => if pred p.1 then insertD d p.1 (val p.1) else d) d0) k
      = if pred k && containsD reg k then some (val k) else lookupD d0 k := by
  induction reg generalizing d0 with
  | nil => simp [containsD]
  | cons p rest ih =>
    rw [List.foldl_cons, ih, containsD_cons]
    by_cases hp : p.1 = k
    · subst hp
      cases hpred : pred p.1 with
      | true => simp [lookupD_insertD]
      | false => simp
    · cases hpred : pred p.1 with
      | true => simp [beqF hp, lookupD_insertD, Ne.symm hp]
      | false => simp [beqF hp]

theorem lookupD_docDump (reg : Reg) (k : String) :
    lookupD (docDump reg) k
      = if containsD reg k then some (regVal reg k) else none := by
  have hfun :
      (fun (d : Dict (Option String)) (p : String × Option String) =>
          insertD d p.1 (regVal reg p.1))
        = (fun d p =>
            if (fun _ => true) p.1 then insertD d p.1 (regVal reg p.1) else d) := by
    funext d p
    rfl
  rw [docDump, hfun, lookupD_foldl_insert (fun _ => true) (regVal reg) reg [] k,
    Bool.true_and]
  rfl

theorem lookupD_docSelect (reg : Reg) (args : List String) (k : String) :
    lookupD (docSelect reg args) k
      = if args.any (fun m => docMatch m k) && containsD reg k
        then some (regVal reg k) else none := by
  suffices h : ∀ d0 : Dict (Option String),
      lookupD
          (args.foldl
            (fun d module =>
              reg.foldl
                (fun d p =>
                  if docMatch module p.1 then insertD d p.1 (regVal reg p.1) else d)
                d)
            d0) k
        = if args.any (fun m => docMatch m k) && containsD reg k
          then some (regVal reg k) else lookupD d0 k by
    rw [docSelect, h []]; rfl
  induction args with
  | nil => intro d0; simp
  | cons m rest ih =>
    intro d0
    rw [List.foldl_cons, ih, lookupD_foldl_insert (docMatch m) (regVal reg) reg d0 k,
      List.any_cons]
    cases hm : docMatch m k <;> cases hc : containsD reg k <;>
      cases hrest : rest.any (fun m => docMatch m k) <;> simp

theorem lookupD_strip_rst (norm : Option String → Option String)
    (d : Dict (Option String)) (k : String) :
    lookupD (strip_rst norm d) k = (lookupD d k).map norm := by
  induction d with
  | nil => rfl
  | cons p rest ih =>
    rw [strip_rst, List.map_cons, lookupD_cons, lookupD_cons]
    by_cases hp : p.1 = k
    · rw [if_cond_true (beqT hp), if_cond_true (beqT hp)]; rfl
    · rw [if_cond_false (beqF hp), if_cond_false (beqF hp)]
      exact ih

theorem containsD_strip_rst (norm : Option String → Option String)
    (d : Dict (Option String)) (k : String) :
    containsD (strip_rst norm d) k = containsD d k := by
  rw [containsD_eq_isSome_lookupD, containsD_eq_isSome_lookupD, lookupD_strip_rst]
  cases lookupD d k <;> rfl

theorem lookupD_doc (norm : Option String → Option String) (reg : Reg)
    (args : List String) (k : String) :
    lookupD (doc norm reg args) k
      = if (args.isEmpty || args.any (fun m => docMatch m k)) && containsD reg k
        then some (norm (regVal reg k)) else none := by
  rw [doc]
  cases args with
  | nil =>
    rw [if_cond_true (show ([] : List String).isEmpty = true from rfl),
      lookupD_strip_rst, lookupD_docDump]
    cases hc : containsD reg k <;> simp
  | cons a rest =>
    rw [if_neg (by simp), lookupD_strip_rst, lookupD_docSelect]
    cases hany : (a :: rest).any (fun m => docMatch m k) <;>
      cases hc : containsD reg k <;> simp

theorem containsD_doc (norm : Option String → Option String) (reg : Reg)
    (args : List String) (k : String) :
    containsD (doc norm reg args) k
      = ((args.isEmpty || args.any (fun m => docMatch m k)) && containsD reg k) := by
  rw [containsD_eq_isSome_lookupD, lookupD_doc]
  cases h : (args.isEmpty || args.any (fun m => docMatch m k)) && containsD reg k <;> rfl

/-! ## Set and sorting lemmas -/

theorem mem_insertS (s : List String) (x a : String) :
    a ∈ insertS s x ↔ a ∈ s ∨ a = x := by
  unfold insertS
  by_cases hc : s.contains x = true
  · rw [if_pos hc]
    have hx : x ∈ s := by simpa [List.contains] using hc
    constructor
    · exact Or.inl
    · rintro (h | h)
      · exact h
      · exact h ▸ hx
  · rw [if_neg hc]
    simp

theorem nodup_insertS (s : List String) (x : String) (h : s.Nodup) :
    (insertS s x).Nodup := by
  unfold insertS
  by_cases hc : s.contains x = true
  · rw [if_pos hc]; exact h
  · rw [if_neg hc]
    have hx : x ∉ s := fun hm => hc (by simpa [List.contains] using hm)
    rw [← List.concat_eq_append]
    exact List.Nodup.concat hx h

theorem nodup_foldl {β : Type} (step : List String → β → List String)
    (hstep : ∀ s b, s.Nodup → (step s b).Nodup) (l : List β) (s0 : List String)
    (h : s0.Nodup) : (l.foldl step s0).Nodup := by
  induction l generalizing s0 with
  | nil => exact h
  | cons b rest ih => exact ih (step s0 b) (hstep s0 b h)

theorem mem_foldl_insertS (pred : String → Bool) (reg : Reg) (s0 : List String)
    (x : String) :
    x ∈ reg.foldl (fun s p => if pred p.1 then insertS s p.1 else s) s0
      ↔ x ∈ s0 ∨ (pred x = true ∧ x ∈ reg.map Prod.fst) := by
  induction reg generalizing s0 with
  | nil => simp
  | cons p rest ih =>
    rw [List.foldl_cons, ih]
    by_cases hpred : pred p.1 = true
    · rw [if_pos hpred, mem_insertS]
      constructor
      · rintro ((h | h) | h)
        · exact Or.inl h
        · exact Or.inr ⟨by rw [h]; exact hpred, by simp [h]⟩
        · exact Or.inr ⟨h.1, by simp only [List.map_cons, List.mem_cons]; exact Or.inr h.2⟩
      · rintro (h | ⟨h1, h2⟩)
        · exact Or.inl (Or.inl h)
        · rw [List.map_cons, List.mem_cons] at h2
          rcases h2 with h2 | h2
          · exact Or.inl (Or.inr h2)
          · exact Or.inr ⟨h1, h2⟩
    · rw [if_neg hpred]
      constructor
      · rintro (h | h)
        · exact Or.inl h
        · exact Or.inr ⟨h.1, by simp only [List.map_cons, List.mem_cons]; exact Or.inr h.2⟩
      · rintro (h | ⟨h1, h2⟩)
        · exact Or.inl h
        · rw [List.map_cons, List.mem_cons] at h2
          rcases h2 with h2 | h2
          · rw [h2] at h1; exact absurd h1 hpred
          · exact Or.inr ⟨h1, h2⟩

theorem lexLe_total (a : List Char) : ∀ b : List Char, lexLe a b = true ∨ lexLe b a = true := by
  induction a with
  | nil => intro b; left; rfl
  | cons x as ih =>
    intro b
    cases b with
    | nil => right; rfl
    | cons y bs =>
      simp only [lexLe]
      by_cases hxy : x = y
      · subst hxy
        rw [if_pos rfl, if_pos rfl]
        exact ih bs
      · rw [if_neg hxy, if_neg (Ne.symm hxy)]
        rcases lt_or_gt_of_ne hxy with h | h
        · left; exact decide_eq_true h
        · right; exact decide_eq_true h

theorem lexLe_trans {a : List Char} :
    ∀ {b c : List Char}, lexLe a b = true → lexLe b c = true → lexLe a c = true := by
  induction a with
  | nil => intro b c _ _; rfl
  | cons x as ih =>
    intro b c hab hbc
    cases b with
    | nil => exact absurd hab (by simp [lexLe])
    | cons y bs =>
      cases c with
      | nil => exact absurd hbc (by simp [lexLe])
      | cons z cs =>
        simp only [lexLe] at hab hbc ⊢
        by_cases hxy : x = y
        · subst hxy
          rw [if_pos rfl] at hab
          by_cases hxz : x = z
          · subst hxz
            rw [if_pos rfl] at hbc ⊢
            exact ih hab hbc
          · rw [if_neg hxz] at hbc ⊢
            exact hbc
        · rw [if_neg hxy] at hab
          have hlt : x < y := of_decide_eq_true hab
          by_cases hyz : y = z
          · subst hyz
            rw [if_neg hxy]
            exact hab
          · rw [if_neg hyz] at hbc
            have hlt2 : y < z := of_decide_eq_true hbc
            have hxz : x < z := lt_trans hlt hlt2
            rw [if_neg (ne_of_lt hxz)]
            exact decide_eq_true hxz

theorem strLe_total (a b : String) : strLe a b = true ∨ strLe b a = true :=
  lexLe_total a.data b.data

theorem strLe_trans {a b c : String} (h1 : strLe a b = true) (h2 : strLe b c = true) :
    strLe a c = true :=
  lexLe_trans h1 h2

theorem insertSorted_perm (x : String) (l : List String) :
    List.Perm (insertSorted x l) (x :: l) := by
  induction l with
  | nil => exact List.Perm.refl _
  | cons y ys ih =>
    rw [insertSorted]
    by_cases h : strLe x y = true
    · rw [if_pos h]
    · rw [if_neg h]
      exact List.Perm.trans (List.Perm.cons y ih) (List.Perm.swap x y ys)

theorem sortStrings_perm (l : List String) : List.Perm (sortStrings l) l := by
  induction l with
  | nil => exact List.Perm.refl _
  | cons x xs ih =>
    show List.Perm (insertSorted x (sortStrings xs)) (x :: xs)
    exact List.Perm.trans (insertSorted_perm x (sortStrings xs)) (List.Perm.cons x ih)

theorem mem_sortStrings (l : List String) (a : String) :
    a ∈ sortStrings l ↔ a ∈ l :=
  (sortStrings_perm l).mem_iff

theorem nodup_sortStrings (l : List String) (h : l.Nodup) : (sortStrings l).Nodup :=
  (sortStrings_perm l).nodup_iff.mpr h

theorem pairwise_insertSorted (x : String) (l : List String)
    (h : l.Pairwise (fun a b => strLe a b = true)) :
    (insertSorted x l).Pairwise (fun a b => strLe a b = true) := by
  induction l with
  | nil => simp [insertSorted]
  | cons y ys ih =>
    rw [insertSorted]
    rcases List.pairwise_cons.mp h with ⟨hy, hys⟩
    by_cases hxy : strLe x y = true
    · rw [if_pos hxy]
      apply List.pairwise_cons.mpr
      refine ⟨?_, h⟩
      intro b hb
      rcases List.mem_cons.mp hb with hb | hb
      · rw [hb]; exact hxy
      · exact strLe_trans hxy (hy b hb)
    · rw [if_neg hxy]
      have hyx : strLe y x = true := (strLe_total x y).resolve_left hxy
      apply List.pairwise_cons.mpr
      refine ⟨?_, ih hys⟩
      intro b hb
      rcases List.mem_cons.mp ((insertSorted_perm x ys).mem_iff.mp hb) with hb | hb
      · rw [hb]; exact hyx
      · exact hy b hb

theorem pairwise_sortStrings (l : List String) :
    (sortStrings l).Pairwise (fun a b => strLe a b = true) := by
  induction l with
  | nil => exact List.Pairwise.nil
  | cons x xs ih => exact pairwise_insertSorted x (sortStrings xs) ih

/-! ## Splitting lemmas (for `list_modules`) -/

theorem splitCharList_ne_nil (c : Char) (l : List Char) : splitCharList c l ≠ [] := by
  cases l with
  | nil => simp [splitCharList]
  | cons ch rest =>
    rw [splitCharList]
    by_cases hc : ch = c
    · rw [if_pos hc]; simp
    · rw [if_neg hc]; simp

theorem two_le_length_splitCharList (c : Char) (l : List Char) :
    2 ≤ (splitCharList c l).length ↔ c ∈ l := by
  induction l with
  | nil => simp [splitCharList]
  | cons ch rest ih =>
    rw [splitCharList]
    by_cases hc : ch = c
    · rw [if_pos hc]
      have hpos : 0 < (splitCharList c rest).length :=
        List.length_pos.mpr (splitCharList_ne_nil c rest)
      simp only [List.length_cons, List.mem_cons]
      constructor
      · intro _; exact Or.inl hc.symm
      · intro _; omega
    · rw [if_neg hc]
      have hlen : (splitCharList c rest).tail.length + 1 = (splitCharList c rest).length := by
        cases h : splitCharList c rest with
        | nil => exact absurd h (splitCharList_ne_nil c rest)
        | cons g gs => simp
      simp only [List.length_cons, List.mem_cons]
      rw [show (2 ≤ (splitCharList c rest).tail.length + 1)
            = (2 ≤ (splitCharList c rest).length) from by rw [← hlen], ih]
      constructor
      · intro h; exact Or.inr h
      · rintro (h | h)
        · exact absurd h.symm hc
        · exact h

theorem headD_splitCharList (c : Char) (l : List Char) :
    (splitCharList c l).headD [] = l.takeWhile (fun ch => ch != c) := by
  induction l with
  | nil => rfl
  | cons ch rest ih =>
    rw [splitCharList, List.takeWhile_cons]
    by_cases hc : ch = c
    · rw [if_pos hc, if_cond_false (by simp [hc])]
      rfl
    · rw [if_neg hc, if_cond_true (by simp [hc])]
      rw [List.headD_cons, ih]

theorem pySplitDot_headD (s : String) :
    (pySplitDot s).headD "" = String.mk (s.data.takeWhile (fun ch => ch != '.')) := by
  rw [pySplitDot, ← headD_splitCharList]
  cases h : splitCharList '.' s.data with
  | nil => exact absurd h (splitCharList_ne_nil _ _)
  | cons g gs => simp

theorem pySplitDot_length (s : String) :
    (pySplitDot s).length = (splitCharList '.' s.data).length := by
  simp [pySplitDot]

theorem two_le_length_pySplitDot (s : String) :
    2 ≤ (pySplitDot s).length ↔ '.' ∈ s.data := by
  rw [pySplitDot_length, two_le_length_splitCharList]

/-! ## Membership in the listing folds -/

theorem mem_listSelect (reg : Reg) (args : List String) (s0 : List String)
    (x : String) :
    x ∈ args.foldl
        (fun names module =>
          reg.foldl
            (fun names p =>
              if pyStartsWith p.1 (withSep module) then insertS names p.1 else names)
            names)
        s0
      ↔ x ∈ s0
        ∨ ∃ m ∈ args, pyStartsWith x (withSep m) = true ∧ x ∈ reg.map Prod.fst := by
  induction args generalizing s0 with
  | nil => simp
  | cons m rest ih =>
    rw [List.foldl_cons, ih,
      mem_foldl_insertS (fun fn => pyStartsWith fn (withSep m)) reg s0 x]
    constructor
    · rintro ((h | h) | h)
      · exact Or.inl h
      · exact Or.inr ⟨m, List.mem_cons_self m rest, h.1, h.2⟩
      · rcases h with ⟨m', hm', h1, h2⟩
        exact Or.inr ⟨m', List.mem_cons_of_mem m hm', h1, h2⟩
    · rintro (h | ⟨m', hm', h1, h2⟩)
      · exact Or.inl (Or.inl h)
      · rcases List.mem_cons.mp hm' with hm' | hm'
        · exact Or.inl (Or.inr ⟨by rw [← hm']; exact h1, h2⟩)
        · exact Or.inr ⟨m', hm', h1, h2⟩

theorem mem_modulesFold (reg : Reg) (s0 : List String) (x : String) :
    x ∈ reg.foldl
        (fun modules p =>
          let comps := pySplitDot p.1
          if comps.length < 2 then modules else insertS modules (comps.headD ""))
        s0
      ↔ x ∈ s0
        ∨ ∃ n, n ∈ reg.map Prod.fst ∧ 2 ≤ (pySplitDot n).length
            ∧ x = (pySplitDot n).headD "" := by
  induction reg generalizing s0 with
  | nil => simp
  | cons p rest ih =>
    rw [List.foldl_cons, ih]
    by_cases hlen : (pySplitDot p.1).length < 2
    · rw [if_pos hlen]
      constructor
      · rintro (h | ⟨n, hn, h1, h2⟩)
        · exact Or.inl h
        · exact Or.inr ⟨n, by simp only [List.map_cons, List.mem_cons]; exact Or.inr hn, h1, h2⟩
      · rintro (h | ⟨n, hn, h1, h2⟩)
        · exact Or.inl h
        · rw [List.map_cons, List.mem_cons] at hn
          rcases hn with hn | hn
          · rw [hn] at h1; omega
          · exact Or.inr ⟨n, hn, h1, h2⟩
    · rw [if_neg hlen]
      constructor
      · rintro (h | ⟨n, hn, h1, h2⟩)
        · rcases (mem_insertS s0 ((pySplitDot p.1).headD "") x).mp h with h | h
          · exact Or.inl h
          · exact Or.inr ⟨p.1, by simp, by omega, h⟩
        · exact Or.inr ⟨n, by simp only [List.map_cons, List.mem_cons]; exact Or.inr hn, h1, h2⟩
      · rintro (h | ⟨n, hn, h1, h2⟩)
        · exact Or.inl ((mem_insertS s0 _ x).mpr (Or.inl h))
        · rw [List.map_cons, List.mem_cons] at hn
          rcases hn with hn | hn
          · exact Or.inl ((mem_insertS s0 _ x).mpr (Or.inr (by rw [hn] at h2; exact h2)))
          · exact Or.inr ⟨n, hn, h1, h2⟩

/-! ## The effective prefix of a term -/

theorem withSep_eq_append_dot {t : String} (h1 : pyTruthy t = true)
    (h2 : endsDot t = false) : withSep t = t ++ "." := by
  rw [withSep, if_cond_true h1, if_cond_false h2]

theorem pyTruthy_append_dot (t : String) : pyTruthy (t ++ ".") = true := by
  have hd : ("." : String).data = ['.'] := rfl
  rw [pyTruthy, String.data_append, hd]
  simp

theorem endsDot_append_dot (t : String) : endsDot (t ++ ".") = true := by
  have hd : ("." : String).data = ['.'] := rfl
  rw [endsDot, String.data_append, hd, List.getLast?_concat]
  rfl

theorem withSep_append_dot (t : String) : withSep (t ++ ".") = t ++ "." := by
  rw [withSep, if_cond_true (pyTruthy_append_dot t), if_cond_true (endsDot_append_dot t)]

/-! ## The claims -/

/-- C1: for every registry and every non-empty query term without a trailing
separator, `doc(t)` selects exactly the registry names `n` with `n == t` or
`n` starting with `t + "."`; so the term "sys" matches the name "sys.reload"
but not "sysctl.get" — prefix matching respects the separator boundary. -/
theorem c1_doc_matches_on_separator_boundary
    (norm : Option String → Option String) (reg : Reg) (t : String)
    (h1 : pyTruthy t = true) (h2 : endsDot t = false) :
    ∀ n : String, containsD (doc norm reg [t]) n = true
      ↔ n ∈ reg.map Prod.fst ∧ (n = t ∨ pyStartsWith n (t ++ ".") = true) := by
  intro n
  rw [containsD_doc]
  simp only [List.isEmpty_cons, List.any_cons, List.any_nil, Bool.false_or,
    Bool.or_false]
  rw [docMatch, withSep_eq_append_dot h1 h2, Bool.and_eq_true, Bool.or_eq_true,
    containsD_iff]
  simp only [beq_iff_eq]
  exact and_comm

/-- Witness for C1: the registry containing "sys.reload" and "sysctl.get",
queried with the term "sys". -/
theorem c1_witness :
    (pyTruthy "sys" = true ∧ endsDot "sys" = false)
    ∧ (containsD (doc id [("sys.reload", some "r"), ("sysctl.get", some "g")] ["sys"])
          "sys.reload" = true
        ↔ "sys.reload"
              ∈ ([("sys.reload", some "r"), ("sysctl.get", some "g")] : Reg).map Prod.fst
            ∧ ("sys.reload" = "sys" ∨ pyStartsWith "sys.reload" ("sys" ++ ".") = true)) :=
  ⟨⟨by decide, by decide⟩,
    c1_doc_matches_on_separator_boundary id
      [("sys.reload", some "r"), ("sysctl.get", some "g")] "sys"
      (by decide) (by decide) "sys.reload"⟩

/-- C2 fails as stated: `list_functions` (unlike `doc`) has no exact-name
clause, so on a registry containing the name "pkg" itself the result of
`list_functions("pkg", "user")` omits "pkg". -/
theorem c2_counterexample :
    "pkg" ∈ ([("pkg", some "d"), ("pkg.install", some "i")] : Reg).map Prod.fst
    ∧ list_functions ([("pkg", some "d"), ("pkg.install", some "i")] : Reg)
        ["pkg", "user"] () = ["pkg.install"]
    ∧ "pkg" ∉ list_functions ([("pkg", some "d"), ("pkg.install", some "i")] : Reg)
        ["pkg", "user"] () :=
  ⟨by decide, by decide, by decide⟩

/-- C2 (amended): for every registry, `list_functions("pkg", "user")` returns
the deduplicated, lexicographically sorted union of the registry names that
start with "pkg." or "user.", with no duplicates even if both terms match an
overlapping name; a registry name exactly equal to a bare term is NOT
included — the listing path appends the separator to the term and uses raw
prefix matching only, with no exact-name clause. -/
theorem c2_list_functions_two_terms (reg : Reg) {κ : Type} (kw : κ) :
    (∀ n, n ∈ list_functions reg ["pkg", "user"] kw
        ↔ n ∈ reg.map Prod.fst
          ∧ (pyStartsWith n "pkg." = true ∨ pyStartsWith n "user." = true))
    ∧ (list_functions reg ["pkg", "user"] kw).Pairwise (fun a b => strLe a b = true)
    ∧ (list_functions reg ["pkg", "user"] kw).Nodup := by
  have hlf : list_functions reg ["pkg", "user"] kw
      = sortStrings
          (["pkg", "user"].foldl
            (fun names module =>
              reg.foldl
                (fun names p =>
                  if pyStartsWith p.1 (withSep module) then insertS names p.1 else names)
                names)
            []) := by
    rw [list_functions, if_neg (by simp)]
  have w1 : withSep "pkg" = "pkg." := by decide
  have w2 : withSep "user" = "user." := by decide
  refine ⟨?_, ?_, ?_⟩
  · intro n
    rw [hlf, mem_sortStrings, mem_listSelect]
    constructor
    · rintro (h | ⟨m, hm, hp, hmem⟩)
      · simp at h
      · refine ⟨hmem, ?_⟩
        rcases List.mem_cons.mp hm with hm | hm
        · left; rw [← w1, ← hm]; exact hp
        · rcases List.mem_cons.mp hm with hm | hm
          · right; rw [← w2, ← hm]; exact hp
          · simp at hm
    · rintro ⟨hmem, hp | hp⟩
      · exact Or.inr ⟨"pkg", by simp, by rw [w1]; exact hp, hmem⟩
      · exact Or.inr ⟨"user", by simp, by rw [w2]; exact hp, hmem⟩
  · rw [hlf]
    exact pairwise_sortStrings _
  · rw [hlf]
    apply nodup_sortStrings
    apply nodup_foldl _ ?_ _ _ List.nodup_nil
    intro s m hs
    apply nodup_foldl _ ?_ _ _ hs
    intro s' p hs'
    by_cases h : pyStartsWith p.1 (withSep m) = true
    · rw [if_pos h]; exact nodup_insertS _ _ hs'
    · rw [if_neg h]; exact hs'

/-- C3: for every registry snapshot, `doc()` with no arguments returns a
mapping whose key set equals the registry's key set exactly, each value being
the normalized documentation string of the corresponding entry; and
`doc("pkg")` is the restriction of that mapping to the names starting with
"pkg." or equal to "pkg". -/
theorem c3_doc_dump_and_restriction (norm : Option String → Option String)
    (reg : Reg) :
    (∀ k, containsD (doc norm reg []) k = containsD reg k)
    ∧ (∀ k v, lookupD reg k = some v → lookupD (doc norm reg []) k = some (norm v))
    ∧ (∀ k, lookupD (doc norm reg ["pkg"]) k
        = if k = "pkg" ∨ pyStartsWith k "pkg." = true
          then lookupD (doc norm reg []) k else none) := by
  have w1 : withSep "pkg" = "pkg." := by decide
  refine ⟨?_, ?_, ?_⟩
  · intro k
    rw [containsD_doc]
    simp
  · intro k v hv
    have hc : containsD reg k = true := by
      rw [containsD_eq_isSome_lookupD, hv]; rfl
    rw [lookupD_doc]
    simp [regVal, hv, hc]
  · intro k
    rw [lookupD_doc, lookupD_doc]
    by_cases h1 : k = "pkg" <;> by_cases h2 : pyStartsWith k "pkg." = true <;>
      cases hc : containsD reg k <;>
      simp [docMatch, w1, h1, h2, hc]

/-- C4: for every registry and any two query terms, `doc(a, b)` is the
key-wise union of `doc(a)` and `doc(b)`: a name is present iff it is present
in one of the single-term results, and it carries the same value there. -/
theorem c4_doc_union (norm : Option String → Option String) (reg : Reg)
    (a b : String) :
    (∀ k, containsD (doc norm reg [a, b]) k = true
        ↔ containsD (doc norm reg [a]) k = true ∨ containsD (doc norm reg [b]) k = true)
    ∧ (∀ k, containsD (doc norm reg [a]) k = true
        → lookupD (doc norm reg [a, b]) k = lookupD (doc norm reg [a]) k)
    ∧ (∀ k, containsD (doc norm reg [b]) k = true
        → lookupD (doc norm reg [a, b]) k = lookupD (doc norm reg [b]) k) := by
  refine ⟨?_, ?_, ?_⟩
  · intro k
    rw [containsD_doc, containsD_doc, containsD_doc]
    cases ha : docMatch a k <;> cases hb : docMatch b k <;>
      cases hc : containsD reg k <;> simp
  · intro k h
    rw [containsD_doc] at h
    simp only [List.isEmpty_cons, List.any_cons, List.any_nil, Bool.false_or,
      Bool.or_false, Bool.and_eq_true] at h
    rw [lookupD_doc, lookupD_doc]
    simp [h.1, h.2]
  · intro k h
    rw [containsD_doc] at h
    simp only [List.isEmpty_cons, List.any_cons, List.any_nil, Bool.false_or,
      Bool.or_false, Bool.and_eq_true] at h
    rw [lookupD_doc, lookupD_doc]
    simp [h.1, h.2]

/-- C5: for every registry, `list_modules()` returns the deduplicated,
lexicographically sorted list of the substrings before the first separator of
exactly those registry names containing at least one separator; on a registry
with names pkg.install, pkg.remove, user.info and orphan it returns
["pkg", "user"]. -/
theorem c5_list_modules :
    (∀ (reg : Reg) (m : String),
        m ∈ list_modules reg
          ↔ ∃ n, n ∈ reg.map Prod.fst ∧ '.' ∈ n.data
              ∧ m = String.mk (n.data.takeWhile (fun ch => ch != '.')))
    ∧ (∀ reg : Reg, (list_modules reg).Pairwise (fun a b => strLe a b = true))
    ∧ (∀ reg : Reg, (list_modules reg).Nodup)
    ∧ list_modules
        [("pkg.install", none), ("pkg.remove", none), ("user.info", none),
          ("orphan", none)]
        = ["pkg", "user"] := by
  refine ⟨?_, ?_, ?_, by decide⟩
  · intro reg m
    rw [list_modules, mem_sortStrings, mem_modulesFold]
    constructor
    · rintro (h | ⟨n, hn, h1, h2⟩)
      · simp at h
      · exact ⟨n, hn, (two_le_length_pySplitDot n).mp h1, by rw [h2, pySplitDot_headD]⟩
    · rintro ⟨n, hn, hdot, hm⟩
      exact Or.inr ⟨n, hn, (two_le_length_pySplitDot n).mpr hdot,
        by rw [hm, pySplitDot_headD]⟩
  · intro reg
    rw [list_modules]
    exact pairwise_sortStrings _
  · intro reg
    rw [list_modules]
    apply nodup_sortStrings
    apply nodup_foldl _ ?_ _ _ List.nodup_nil
    intro s p hs
    by_cases h : (pySplitDot p.1).length < 2
    · simpa [h] using hs
    · simpa [h] using nodup_insertS _ _ hs

/-- C6: a query against an unavailable or uninitialized state registry
provider surfaces the distinct provider error to the caller instead of
silently returning an empty or partial mapping. -/
theorem c6_state_provider_error (norm : Option String → Option String)
    (args : List String) {κ : Type} (kw : κ) (o : Opts)
    (h : o.stateRegistry = none) :
    state_doc norm o args = Except.error ProviderError.unavailable
    ∧ list_state_functions o args kw = Except.error ProviderError.unavailable := by
  have hs : stateStates o = Except.error ProviderError.unavailable := by
    rw [stateStates, h]
  exact ⟨by rw [state_doc, hs]; rfl, by rw [list_state_functions, hs]; rfl⟩

/-- Witness for C6: the configuration whose state registry provider is
unavailable. -/
theorem c6_witness :
    (Opts.mk none).stateRegistry = none
    ∧ (state_doc id (Opts.mk none) ["pkg"] = Except.error ProviderError.unavailable
        ∧ list_state_functions (Opts.mk none) ["pkg"] ()
            = Except.error ProviderError.unavailable) :=
  ⟨rfl, c6_state_provider_error id ["pkg"] () (Opts.mk none) rfl⟩

/-- C7: for every registry (whose key set, being a Python dict's, is
duplicate-free), `list_functions()` with no arguments returns exactly the
lexicographically sorted, duplicate-free sequence of all registry names, and
a repeated call against the unchanged registry returns the same sequence. -/
theorem c7_list_functions_no_args (reg : Reg) {κ : Type} (kw : κ)
    (hnd : (reg.map Prod.fst).Nodup) :
    (∀ n, n ∈ list_functions reg [] kw ↔ n ∈ reg.map Prod.fst)
    ∧ (list_functions reg [] kw).Pairwise (fun a b => strLe a b = true)
    ∧ (list_functions reg [] kw).Nodup
    ∧ list_functions reg [] kw = list_functions reg [] kw := by
  have h : list_functions reg [] kw = sortStrings (reg.map Prod.fst) := by
    rw [list_functions, if_cond_true (show ([] : List String).isEmpty = true from rfl)]
  exact ⟨fun n => by rw [h, mem_sortStrings],
    by rw [h]; exact pairwise_sortStrings _,
    by rw [h]; exact nodup_sortStrings _ hnd, rfl⟩

/-- Witness for C7: a concrete two-entry registry with distinct keys. -/
theorem c7_witness :
    (([("b.x", none), ("a.y", none)] : Reg).map Prod.fst).Nodup
    ∧ ((∀ n, n ∈ list_functions ([("b.x", none), ("a.y", none)] : Reg) [] ()
          ↔ n ∈ ([("b.x", none), ("a.y", none)] : Reg).map Prod.fst)
        ∧ (list_functions ([("b.x", none), ("a.y", none)] : Reg) [] ()).Pairwise
            (fun a b => strLe a b = true)
        ∧ (list_functions ([("b.x", none), ("a.y", none)] : Reg) [] ()).Nodup
        ∧ list_functions ([("b.x", none), ("a.y", none)] : Reg) [] ()
            = list_functions ([("b.x", none), ("a.y", none)] : Reg) [] ()) :=
  ⟨by decide, c7_list_functions_no_args _ () (by decide)⟩

/-- C8: unrecognized keyword arguments never make `list_functions` or
`list_state_functions` fail (both are total functions of their inputs), and
the result equals the one of the call with the keyword arguments omitted:
the `**kwargs` parameter is swallowed unused. -/
theorem c8_garbage_kwargs_ignored (reg : Reg) (o : Opts) (args : List String)
    {κ : Type} (kw : κ) :
    list_functions reg args kw = list_functions reg args ()
    ∧ list_functions reg args [("garbage_keyword_arg", (123 : Int))]
        = list_functions reg args ()
    ∧ list_state_functions o args kw = list_state_functions o args ()
    ∧ list_state_functions o args [("garbage_keyword_arg", (123 : Int))]
        = list_state_functions o args () :=
  ⟨rfl, rfl, rfl, rfl⟩

/-- C9: every fully-qualified name appearing in a result of `doc`,
`state_doc`, `list_functions` or `list_state_functions` is a key of the
registry snapshot the call consulted; no absent name ever appears. -/
theorem c9_results_drawn_from_registry (norm : Option String → Option String)
    (reg st : Reg) (args : List String) {κ : Type} (kw : κ) :
    (∀ k, containsD (doc norm reg args) k = true → k ∈ reg.map Prod.fst)
    ∧ (∀ n, n ∈ list_functions reg args kw → n ∈ reg.map Prod.fst)
    ∧ (∀ d k, state_doc norm (Opts.mk (some st)) args = Except.ok d
        → containsD d k = true → k ∈ st.map Prod.fst)
    ∧ (∀ l n, list_state_functions (Opts.mk (some st)) args kw = Except.ok l
        → n ∈ l → n ∈ st.map Prod.fst) := by
  have hdoc : ∀ (r : Reg) (k : String),
      containsD (doc norm r args) k = true → k ∈ r.map Prod.fst := by
    intro r k h
    rw [containsD_doc, Bool.and_eq_true] at h
    exact (containsD_iff r k).mp h.2
  have hlist : ∀ (r : Reg) (n : String),
      n ∈ list_functions r args kw → n ∈ r.map Prod.fst := by
    intro r n hn
    rw [list_functions] at hn
    by_cases hargs : args.isEmpty = true
    · rw [if_pos hargs, mem_sortStrings] at hn
      exact hn
    · rw [if_neg hargs, mem_sortStrings, mem_listSelect] at hn
      rcases hn with h | ⟨m, _, _, h⟩
      · simp at h
      · exact h
  refine ⟨hdoc reg, hlist reg, ?_, ?_⟩
  · intro d k hok hc
    rw [show state_doc norm (Opts.mk (some st)) args
          = Except.ok (doc norm st args) from rfl] at hok
    injection hok with hd
    rw [← hd] at hc
    exact hdoc st k hc
  · intro l n hok hn
    rw [show list_state_functions (Opts.mk (some st)) args kw
          = Except.ok (list_functions st args kw) from rfl] at hok
    injection hok with hl
    rw [← hl] at hn
    exact hlist st n hn

/-- C10: for every registry and every non-empty query term not already ending
with the separator, appending a trailing separator to the term changes
neither `list_functions` nor `list_state_functions`. -/
theorem c10_trailing_separator_irrelevant (reg : Reg) (o : Opts) {κ : Type}
    (kw : κ) (t : String) (h1 : pyTruthy t = true) (h2 : endsDot t = false) :
    list_functions reg [t] kw = list_functions reg [t ++ "."] kw
    ∧ list_state_functions o [t] kw = list_state_functions o [t ++ "."] kw := by
  have hsep : withSep t = withSep (t ++ ".") := by
    rw [withSep_eq_append_dot h1 h2, withSep_append_dot]
  have hlf : ∀ r : Reg, list_functions r [t] kw = list_functions r [t ++ "."] kw := by
    intro r
    rw [list_functions, list_functions, if_neg (by simp), if_neg (by simp)]
    simp only [List.foldl_cons, List.foldl_nil]
    rw [hsep]
  refine ⟨hlf reg, ?_⟩
  rw [list_state_functions, list_state_functions]
  cases hst : stateStates o with
  | error e => rfl
  | ok st =>
    show Except.ok (list_functions st [t] kw) = Except.ok (list_functions st [t ++ "."] kw)
    rw [hlf st]

/-- Witness for C10: the term "sys" against concrete execution and state
registries. -/
theorem c10_witness :
    (pyTruthy "sys" = true ∧ endsDot "sys" = false)
    ∧ (list_functions ([("sys.reload", some "r"), ("sysctl.get", some "g")] : Reg)
          ["sys"] ()
        = list_functions ([("sys.reload", some "r"), ("sysctl.get", some "g")] : Reg)
            ["sys" ++ "."] ()
        ∧ list_state_functions (Opts.mk (some [("sys.reload", some "r")])) ["sys"] ()
            = list_state_functions (Opts.mk (some [("sys.reload", some "r")]))
                ["sys" ++ "."] ()) :=
  ⟨⟨by decide, by decide⟩,
    c10_trailing_separator_irrelevant
      [("sys.reload", some "r"), ("sysctl.get", some "g")]
      (Opts.mk (some [("sys.reload", some "r")])) () "sys" (by decide) (by decide)⟩
